import Mathlib

/-!
Verification of the declaration-reordering pipeline of `reorganize_state.py`.

The source program extracts top-level `let`/`type` declarations from a text
document with a regex scanner and brace counting, removes duplicate names
(keeping the first occurrence), builds a textual whole-word dependency graph,
orders the declarations with a cycle-tolerant depth-first topological sort, and
reassembles the document (header, type section, function section).

Text is modelled as `List Char`; every Python construct used by the pipeline
(regex matching of the two fixed patterns, `str.find`, slicing, `str.split`,
`str.strip`, sets and dicts in insertion order) is embedded explicitly below.
-/

set_option maxRecDepth 8000

namespace Reorg

abbrev Str := List Char

/-! ## Character classes (Python `\s`, `\w` for the ASCII source text) -/

/-- Python whitespace class `\s` (ASCII part). -/
def isWsChar (c : Char) : Bool :=
  c == ' ' || c == '\t' || c == '\n' || c == '\r' || c == '\x0b' || c == '\x0c'

/-- Python word class `\w` (ASCII part), as used for identifiers in the file. -/
def isWordChar (c : Char) : Bool :=
  c.isAlphanum || c == '_'

/-! ## Regex scanner (`extract_functions`, lines 20-61)

The two patterns `let\s+(\w+)\s*=\s*\([^)]*\)\s*:\s*[^=]+=>\s*\{` and
`type\s+(\w+)\s*=` are deterministic up to maximal-munch: in each pattern every
greedy repetition is followed by a character outside its class, so backtracking
never produces an alternative match.  They are embedded as step-by-step
matchers. -/

/-- Consume a literal, returning the rest of the input. -/
def dropLit (pat : Str) (s : Str) : Option Str :=
  if pat.isPrefixOf s then some (s.drop pat.length) else none

/-- Match `let\s+(\w+)\s*=\s*\([^)]*\)\s*:\s*[^=]+=>\s*\{` at the head of `s`;
returns the captured name and the total match length. -/
def matchFunc (s : Str) : Option (Str × Nat) :=
  match dropLit "let".toList s with
  | none => none
  | some r1 =>
    if (r1.takeWhile isWsChar).isEmpty then none else
    let r2 := r1.dropWhile isWsChar
    let name := r2.takeWhile isWordChar
    if name.isEmpty then none else
    let r3 := (r2.dropWhile isWordChar).dropWhile isWsChar
    match dropLit "=".toList r3 with
    | none => none
    | some r4 =>
      let r5 := r4.dropWhile isWsChar
      match dropLit "(".toList r5 with
      | none => none
      | some r6 =>
        let r7 := r6.dropWhile (fun c => !(c == ')'))
        match dropLit ")".toList r7 with
        | none => none
        | some r8 =>
          let r9 := r8.dropWhile isWsChar
          match dropLit ":".toList r9 with
          | none => none
          | some r10 =>
            if (r10.takeWhile (fun c => !(c == '='))).isEmpty then none else
            let r11 := r10.dropWhile (fun c => !(c == '='))
            match dropLit "=>".toList r11 with
            | none => none
            | some r12 =>
              let r13 := r12.dropWhile isWsChar
              match dropLit ['{'] r13 with
              | none => none
              | some r14 => some (name, s.length - r14.length)

/-- Match `type\s+(\w+)\s*=` at the head of `s`. -/
def matchType (s : Str) : Option (Str × Nat) :=
  match dropLit "type".toList s with
  | none => none
  | some r1 =>
    if (r1.takeWhile isWsChar).isEmpty then none else
    let r2 := r1.dropWhile isWsChar
    let name := r2.takeWhile isWordChar
    if name.isEmpty then none else
    let r3 := (r2.dropWhile isWordChar).dropWhile isWsChar
    match dropLit "=".toList r3 with
    | none => none
    | some r4 => some (name, s.length - r4.length)

/-- `re.finditer`: scan left to right, take the leftmost match, continue after
its end (matches are non-overlapping and nonempty). Produces (name, start).
`skip` counts positions still inside the previous match. -/
def scanWithGo (m : Str → Option (Str × Nat)) : Str → Nat → Nat → List (Str × Nat)
  | [], _, _ => []
  | _ :: cs, pos, k + 1 => scanWithGo m cs (pos + 1) k
  | c :: cs, pos, 0 =>
    match m (c :: cs) with
    | some (name, len) => (name, pos) :: scanWithGo m cs (pos + 1) (len - 1)
    | none => scanWithGo m cs (pos + 1) 0

def scanWith (m : Str → Option (Str × Nat)) (s : Str) (pos : Nat) : List (Str × Nat) :=
  scanWithGo m s pos 0

/-- Brace-balance scan (lines 29-42): starting at `start`, count `{` and `}`;
break at the first `}` that returns the count to zero after a `{` was seen,
yielding `i + 1`.  If that never happens `end_pos` keeps its initial value
`start` (the loop's initialisation `end_pos = start_pos`). -/
def braceScanGo : Str → Nat → Int → Bool → Nat → Nat
  | [], _, _, _, ep => ep
  | c :: cs, i, bc, inF, ep =>
    if c == '{' then braceScanGo cs (i + 1) (bc + 1) true ep
    else if c == '}' then
      (if inF && (bc - 1 == 0) then i + 1 else braceScanGo cs (i + 1) (bc - 1) inF ep)
    else braceScanGo cs (i + 1) bc inF ep

def braceScan (content : Str) (start : Nat) : Nat :=
  braceScanGo (content.drop start) start 0 false start

/-- Python `content[s:e]`. -/
def slice (content : Str) (s e : Nat) : Str :=
  (content.drop s).take (e - s)

/-- Index of the first `"\n\n"` in `s`, if any (`str.find`). -/
def find2NL : Str → Option Nat
  | [] => none
  | [_] => none
  | a :: b :: rest =>
    if a == '\n' && b == '\n' then some 0
    else (find2NL (b :: rest)).map (· + 1)

/-- One extracted declaration: `(function_name, full_definition, start_pos, end_pos)`. -/
structure Extracted where
  name : Str
  text : Str
  startPos : Nat
  endPos : Nat
deriving DecidableEq, Repr

/-- `extract_functions` (lines 13-61): function matches with brace-balanced
spans, then type matches with spans up to the first `"\n\n"` (or end of
document), merged and stably sorted by start position. -/
def extract_functions (content : Str) : List Extracted :=
  let funcs := (scanWith matchFunc content 0).map (fun p =>
    let e := braceScan content p.2
    Extracted.mk p.1 (slice content p.2 e) p.2 e)
  let types := (scanWith matchType content 0).map (fun p =>
    let e := match find2NL (content.drop p.2) with
      | some k => p.2 + k
      | none => content.length
    Extracted.mk p.1 (slice content p.2 e) p.2 e)
  List.insertionSort (fun a b => a.startPos ≤ b.startPos) (funcs ++ types)

/-! ## Deduplication (lines 132-141) -/

/-- The loop of lines 136-141: keep the first occurrence of each name
(`unique_functions` in insertion order), log later occurrences. -/
def removeDupsAux : List Extracted → List (Str × Str) → List Str → List (Str × Str) × List Str
  | [], uniq, dups => (uniq, dups)
  | f :: rest, uniq, dups =>
    if f.name ∈ uniq.map Prod.fst then removeDupsAux rest uniq (dups ++ [f.name])
    else removeDupsAux rest (uniq ++ [(f.name, f.text)]) dups

def removeDups (fns : List Extracted) : List (Str × Str) × List Str :=
  removeDupsAux fns [] []

/-! ## Dependency analysis (`find_dependencies`, lines 63-73) -/

/-- `True` when the previous/next character admits a `\b` boundary. -/
def boundaryOk : Option Char → Bool
  | none => true
  | some c => !isWordChar c

/-- Occurrence of `name` at some position of the remaining text `t`, with the
character preceding the position given as `prev`. -/
def occursWordGo (name : Str) : Str → Option Char → Bool
  | [], prev => name.isPrefixOf [] && boundaryOk prev
  | c :: cs, prev =>
    (name.isPrefixOf (c :: cs) && boundaryOk prev
      && boundaryOk (((c :: cs).drop name.length).head?))
    || occursWordGo name cs (some c)

/-- Python `re.search(rf'\b{name}\b', text)` for a `\w+` name. -/
def occursWord (name text : Str) : Bool :=
  occursWordGo name text none

/-- `find_dependencies`: every declared name occurring whole-word in the text. -/
def find_dependencies (func_def : Str) (all_functions : List Str) : List Str :=
  all_functions.filter (fun n => occursWord n func_def)

/-- The `dependencies` mapping built on lines 148-150. -/
def dependenciesOf (uniq : List (Str × Str)) : List (Str × List Str) :=
  uniq.map (fun p => (p.1, find_dependencies p.2 (uniq.map Prod.fst)))

/-! ## Topological sort (lines 75-103) -/

structure DfsState where
  visited : List Str
  temp : List Str
  result : List Str
deriving DecidableEq, Repr

/-- `dependencies.get(n, set())`. -/
def depsOf (deps : List (Str × List Str)) (n : Str) : List Str :=
  (List.lookup n deps).getD []

/-- The recursive `visit` (lines 81-97), with explicit fuel standing in for the
call stack; `topo_fuel_stable` below shows any fuel above the number of keys
gives the same value, which is how the Python recursion terminates. -/
def visit (deps : List (Str × List Str)) (keys : List Str) : Nat → Str → DfsState → DfsState
  | 0, _, st => st
  | fuel + 1, name, st =>
    if name ∈ st.temp then st
    else if name ∈ st.visited then st
    else
      let st2 := (depsOf deps name).foldl
        (fun s dep => if dep ∈ keys ∧ dep ≠ name then visit deps keys fuel dep s else s)
        (DfsState.mk st.visited (name :: st.temp) st.result)
      DfsState.mk (name :: st2.visited) (st2.temp.erase name) (st2.result ++ [name])

/-- The step of the loop over a node's dependency set (lines 91-93). -/
def depStep (deps : List (Str × List Str)) (keys : List Str) (fuel : Nat) (name : Str) :
    DfsState → Str → DfsState :=
  fun s dep => if dep ∈ keys ∧ dep ≠ name then visit deps keys fuel dep s else s

theorem visit_zero (deps : List (Str × List Str)) (keys : List Str) (name : Str)
    (st : DfsState) : visit deps keys 0 name st = st := rfl

theorem visit_succ (deps : List (Str × List Str)) (keys : List Str) (fuel : Nat) (name : Str)
    (st : DfsState) :
    visit deps keys (fuel + 1) name st =
      if name ∈ st.temp then st
      else if name ∈ st.visited then st
      else
        let st2 := (depsOf deps name).foldl (depStep deps keys fuel name)
          (DfsState.mk st.visited (name :: st.temp) st.result)
        DfsState.mk (name :: st2.visited) (st2.temp.erase name) (st2.result ++ [name]) := rfl

/-- The outer loop of lines 99-101. -/
def topoStep (deps : List (Str × List Str)) (keys : List Str) (fuel : Nat) :
    DfsState → Str → DfsState :=
  fun st name => if name ∈ st.visited then st else visit deps keys fuel name st

def topological_sortFuel (fuel : Nat) (keys : List Str) (deps : List (Str × List Str)) :
    List Str :=
  (keys.foldl (topoStep deps keys fuel) (DfsState.mk [] [] [])).result

/-- `topological_sort(functions, dependencies)`: `keys` are the dict keys in
insertion order. The fuel `keys.length + 1` bounds the depth of the Python
recursion (each frame pushes a fresh key onto `temp_visited`). -/
def topological_sort (keys : List Str) (deps : List (Str × List Str)) : List Str :=
  topological_sortFuel (keys.length + 1) keys deps

/-! ## Header extraction and reassembly (lines 113-126 and 159-183) -/

/-- `content.split('\n')`. -/
def splitLines : Str → List Str
  | [] => [[]]
  | c :: cs =>
    match splitLines cs with
    | [] => [[]]
    | l :: ls => if c = '\n' then [] :: l :: ls else (c :: l) :: ls

/-- `'\n'.join`. -/
def joinLines : List Str → Str
  | [] => []
  | [l] => l
  | l :: l' :: ls => l ++ '\n' :: joinLines (l' :: ls)

/-- A line kept unconditionally by the header loop: comment, blank, or `open`. -/
def keepLine (l : Str) : Bool :=
  "//".toList.isPrefixOf l || l.all isWsChar || "open ".toList.isPrefixOf l

/-- A line at which the header loop breaks. -/
def isDeclStart (l : Str) : Bool :=
  "let ".toList.isPrefixOf l || "type ".toList.isPrefixOf l

/-- Lines 117-124: every line before the first non-header `let `/`type ` line. -/
def headerLines (ls : List Str) : List Str :=
  ls.takeWhile (fun l => !(!keepLine l && isDeclStart l))

def extractHeader (content : Str) : Str :=
  joinLines (headerLines (splitLines content))

/-- Python `str.strip()` (whitespace from both ends). -/
def pyStrip (s : Str) : Str :=
  ((s.dropWhile isWsChar).reverse.dropWhile isWsChar).reverse

/-- Line 164: `definition.strip().startswith('type ')`. -/
def isTypeDef (t : Str) : Bool :=
  "type ".toList.isPrefixOf (pyStrip t)

/-- `'\n\n'.join(...)`. -/
def joinSep (sep : Str) : List Str → Str
  | [] => []
  | [x] => x
  | x :: y :: rest => x ++ sep ++ joinSep sep (y :: rest)

/-- The banner row: `"// "` followed by 77 equals signs and a newline. -/
def eqRow : Str := "// ".toList ++ List.replicate 77 '=' ++ "\n".toList

def typeBanner : Str :=
  eqRow ++ "// TYPE DEFINITIONS\n".toList ++ eqRow ++ "\n".toList

def funcBanner : Str :=
  eqRow ++ "// FUNCTION DEFINITIONS (ordered by dependencies)\n".toList ++ eqRow ++ "\n".toList

/-- `unique_functions[name]` lookup. -/
def textOf (uniq : List (Str × Str)) (n : Str) : Str :=
  (List.lookup n uniq).getD []

/-- The pure core of `reorganize_state_file` (lines 105-183, file I/O and
printing removed): document text in, reorganised document text out. -/
def reorder (content : Str) : Str :=
  let headerC := extractHeader content
  let uniq := (removeDups (extract_functions content)).1
  let sortedNames := topological_sort (uniq.map Prod.fst) (dependenciesOf uniq)
  let typeTexts := (sortedNames.filter (fun n => isTypeDef (textOf uniq n))).map (textOf uniq)
  let funcTexts := (sortedNames.filter (fun n => !isTypeDef (textOf uniq n))).map (textOf uniq)
  headerC ++ "\n\n".toList ++
    (if typeTexts.isEmpty then [] else
      typeBanner ++ joinSep "\n\n".toList typeTexts ++ "\n\n".toList) ++
    (if funcTexts.isEmpty then [] else
      funcBanner ++ joinSep "\n\n".toList funcTexts ++ "\n".toList)

/-- The deduplicated declaration-name sequence of a document, in the order the
declarations appear. -/
def docDeclNames (content : Str) : List Str :=
  ((removeDups (extract_functions content)).1).map Prod.fst

/-! ## The dependency graph followed by `visit` -/

/-- The edge relation actually followed by `visit`: `v` is in `u`'s dependency
set, `v` names a retained declaration, and `v ≠ u` (line 92). -/
def Edge (deps : List (Str × List Str)) (keys : List Str) (u v : Str) : Prop :=
  v ∈ depsOf deps u ∧ v ∈ keys ∧ v ≠ u

/-- Reachability along dependency edges. -/
def Reach (deps : List (Str × List Str)) (keys : List Str) : Str → Str → Prop :=
  Relation.ReflTransGen (Edge deps keys)

/-- Every emitted node's non-cyclic dependencies were emitted before it. -/
def ResultOrdered (deps : List (Str × List Str)) (keys : List Str) (st : DfsState) : Prop :=
  ∀ pre v suf, st.result = pre ++ v :: suf →
    ∀ d, Edge deps keys v d → Reach deps keys d v ∨ d ∈ pre

/-- The invariant maintained by `visit` on the traversal state. -/
def Invar (deps : List (Str × List Str)) (keys : List Str) (st : DfsState) : Prop :=
  (∀ x ∈ st.temp, x ∉ st.visited) ∧ st.temp.Nodup ∧ st.visited.Nodup ∧
  st.result = st.visited.reverse ∧ ResultOrdered deps keys st

/-- Number of keys not yet on the in-progress stack: the recursion depth bound. -/
def mea (keys temp : List Str) : Nat :=
  (keys.filter (fun k => !decide (k ∈ temp))).length

theorem mea_nil (keys : List Str) : mea keys [] = keys.length := by
  simp [mea]

theorem filter_ne_length_lt {α} [DecidableEq α] (a : α) :
    ∀ l : List α, a ∈ l →
      (l.filter (fun k => !decide (k = a))).length < l.length := by
  intro l
  induction l with
  | nil => intro h; cases h
  | cons x xs ih =>
    intro h
    by_cases hx : x = a
    · subst hx
      simp only [List.filter_cons, decide_True, Bool.not_true, List.length_cons]
      refine Nat.lt_succ_of_le ?_
      simpa using List.length_filter_le _ xs
    · simp only [List.filter_cons, hx, decide_False, Bool.not_false, List.length_cons]
      have : a ∈ xs := by
        rcases List.mem_cons.mp h with h' | h'
        · exact absurd h'.symm hx
        · exact h'
      simpa using Nat.succ_lt_succ (ih this)

theorem mea_cons_lt (keys temp : List Str) (name : Str)
    (hk : name ∈ keys) (ht : name ∉ temp) :
    mea keys (name :: temp) < mea keys temp := by
  have hsplit : keys.filter (fun k => !decide (k ∈ name :: temp)) =
      (keys.filter (fun k => !decide (k ∈ temp))).filter (fun k => !decide (k = name)) := by
    rw [List.filter_filter]
    apply List.filter_congr
    intro k _
    by_cases h1 : k = name <;> by_cases h2 : k ∈ temp <;>
      simp [h1, h2, List.mem_cons]
  have hmem : name ∈ keys.filter (fun k => !decide (k ∈ temp)) := by
    simp [List.mem_filter, hk, ht]
  unfold mea
  rw [hsplit]
  exact filter_ne_length_lt name _ hmem

/-- A DFS call on a node that is in progress or done returns the state
unchanged (lines 82-86). -/
theorem visit_mem_stop (deps : List (Str × List Str)) (keys : List Str)
    (fuel : Nat) (name : Str) (st : DfsState)
    (h : name ∈ st.temp ∨ name ∈ st.visited) : visit deps keys fuel name st = st := by
  cases fuel with
  | zero => rfl
  | succ n =>
    rw [visit_succ]
    rcases h with h | h
    · simp [h]
    · by_cases h2 : name ∈ st.temp <;> simp [h, h2]

/-- A rank function that strictly decreases along every edge rules out
reaching back. -/
theorem rank_le_of_reach (deps : List (Str × List Str)) (keys : List Str)
    (rank : Str → Nat) (h : ∀ u v, Edge deps keys u v → rank v < rank u) :
    ∀ u v, Reach deps keys u v → rank v ≤ rank u := by
  intro u v hr
  induction hr with
  | refl => exact le_rfl
  | tail _ h2 ih => exact le_trans (le_of_lt (h _ _ h2)) ih

theorem append_singleton_split {α} (l pre suf : List α) (a v : α)
    (h : l ++ [a] = pre ++ v :: suf) :
    (pre = l ∧ v = a ∧ suf = []) ∨ ∃ s2, suf = s2 ++ [a] ∧ l = pre ++ v :: s2 := by
  rcases List.eq_nil_or_concat suf with hs | ⟨s2, b, hs⟩
  · subst hs
    have := List.append_inj' h (by simp)
    exact Or.inl ⟨this.1.symm, ((List.cons.injEq _ _ _ _).mp this.2).1.symm, rfl⟩
  · subst hs
    have h' : l ++ [a] = (pre ++ v :: s2) ++ [b] := by
      simpa [List.concat_eq_append] using h
    have := List.append_inj' h' (by simp)
    refine Or.inr ⟨s2, ?_, this.1⟩
    rw [List.concat_eq_append, ((List.cons.injEq _ _ _ _).mp this.2).1]

theorem split_unique_of_nodup {α} :
    ∀ (A C : List α) {B D : List α} {a : α},
      A ++ a :: B = C ++ a :: D → (A ++ a :: B).Nodup → A = C ∧ B = D := by
  intro A
  induction A with
  | nil =>
    intro C B D a h hnd
    cases C with
    | nil => simpa using h
    | cons c C' =>
      simp only [List.nil_append, List.cons_append, List.cons.injEq] at h
      exfalso
      rcases h with ⟨h1, h2⟩
      subst h1
      have : a ∈ B := by rw [h2]; exact List.mem_append_right _ (List.mem_cons_self _ _)
      exact (List.nodup_cons.mp (by simpa using hnd)).1 this
  | cons x A' ih =>
    intro C B D a h hnd
    cases C with
    | nil =>
      simp only [List.cons_append, List.nil_append, List.cons.injEq] at h
      exfalso
      rcases h with ⟨h1, h2⟩
      subst h1
      have : x ∈ A' ++ x :: B := List.mem_append_right _ (List.mem_cons_self _ _)
      exact (List.nodup_cons.mp (by simpa using hnd)).1 this
    | cons c C' =>
      simp only [List.cons_append, List.cons.injEq] at h
      rcases h with ⟨h1, h2⟩
      subst h1
      have hnd' : (A' ++ a :: B).Nodup := (List.nodup_cons.mp (by simpa using hnd)).2
      rcases ih C' h2 hnd' with ⟨hA, hB⟩
      exact ⟨by rw [hA], hB⟩

theorem foldl_id_of_fixed {α β} (f : β → α → β) (s : β) :
    ∀ l : List α, (∀ a ∈ l, f s a = s) → List.foldl f s l = s := by
  intro l
  induction l with
  | nil => intro _; rfl
  | cons a l ih =>
    intro h
    rw [List.foldl_cons, h a (List.mem_cons_self _ _)]
    exact ih (fun b hb => h b (List.mem_cons_of_mem _ hb))

/-! ## The main DFS invariant -/

/-- Everything one call of `visit` guarantees: the in-progress stack is
restored, the visited set only grows (by retained names not on the stack), the
invariant is preserved, the node ends done unless it was already in progress,
and one more unit of fuel changes nothing. -/
def VisitConcl (deps : List (Str × List Str)) (keys : List Str) (fuel : Nat)
    (name : Str) (st : DfsState) : Prop :=
  (visit deps keys fuel name st).temp = st.temp ∧
  (∃ lnew, (visit deps keys fuel name st).visited = lnew ++ st.visited ∧
    ∀ x ∈ lnew, x ∈ keys ∧ x ∉ st.temp) ∧
  Invar deps keys (visit deps keys fuel name st) ∧
  (name ∈ st.temp ∨ name ∈ (visit deps keys fuel name st).visited) ∧
  visit deps keys (fuel + 1) name st = visit deps keys fuel name st

theorem visit_succ_go (deps : List (Str × List Str)) (keys : List Str) (fuel : Nat)
    (name : Str) (st : DfsState) (h1 : name ∉ st.temp) (h2 : name ∉ st.visited) :
    visit deps keys (fuel + 1) name st =
      DfsState.mk
        (name :: (List.foldl (depStep deps keys fuel name)
          (DfsState.mk st.visited (name :: st.temp) st.result) (depsOf deps name)).visited)
        ((List.foldl (depStep deps keys fuel name)
          (DfsState.mk st.visited (name :: st.temp) st.result) (depsOf deps name)).temp.erase name)
        ((List.foldl (depStep deps keys fuel name)
          (DfsState.mk st.visited (name :: st.temp) st.result) (depsOf deps name)).result ++ [name]) := by
  rw [visit_succ, if_neg h1, if_neg h2]

/-- The loop over a node's dependency set preserves the invariant, leaves the
stack alone, grows `visited` within `keys`, ends every processed retained
dependency either done or strictly below `name` on the stack, and is
insensitive to one more unit of fuel. -/
theorem fold_main (deps : List (Str × List Str)) (keys : List Str) (m : Nat)
    (IH : ∀ name st, name ∈ keys → mea keys st.temp < m →
      Invar deps keys st → (∀ x ∈ st.temp, Reach deps keys x name) →
      VisitConcl deps keys m name st)
    (name : Str) (hname : name ∈ keys) (temp0 : List Str)
    (hreach0 : ∀ x ∈ temp0, Reach deps keys x name)
    (hmea : mea keys (name :: temp0) < m) :
    ∀ l s, (∀ d ∈ l, d ∈ depsOf deps name) → s.temp = name :: temp0 →
      Invar deps keys s →
      (List.foldl (depStep deps keys m name) s l).temp = name :: temp0 ∧
      (∃ lnew, (List.foldl (depStep deps keys m name) s l).visited = lnew ++ s.visited ∧
        ∀ x ∈ lnew, x ∈ keys ∧ x ∉ name :: temp0) ∧
      Invar deps keys (List.foldl (depStep deps keys m name) s l) ∧
      (∀ d ∈ l, d ∈ keys ∧ d ≠ name →
        d ∈ (List.foldl (depStep deps keys m name) s l).visited ∨ d ∈ temp0) ∧
      List.foldl (depStep deps keys (m + 1) name) s l =
        List.foldl (depStep deps keys m name) s l := by
  intro l
  induction l with
  | nil =>
    intro s _ hst hinv
    exact ⟨hst, ⟨[], by simp, by simp⟩, hinv, by simp, rfl⟩
  | cons d ds ih =>
    intro s hl hst hinv
    by_cases hg : d ∈ keys ∧ d ≠ name
    · have hd : d ∈ depsOf deps name := hl d (List.mem_cons_self _ _)
      have hstep : depStep deps keys m name s d = visit deps keys m d s := by
        simp [depStep, hg]
      have hstep' : depStep deps keys (m + 1) name s d = visit deps keys (m + 1) d s := by
        simp [depStep, hg]
      have hedge : Edge deps keys name d := ⟨hd, hg.1, hg.2⟩
      have hreachd : ∀ x ∈ s.temp, Reach deps keys x d := by
        rw [hst]
        intro x hx
        rcases List.mem_cons.mp hx with rfl | hx'
        · exact Relation.ReflTransGen.single hedge
        · exact Relation.ReflTransGen.tail (hreach0 x hx') hedge
      have hmeas : mea keys s.temp < m := by rw [hst]; exact hmea
      obtain ⟨hv_temp, ⟨l1, hv_vis, hv_l1⟩, hv_inv, hv_done, hv_eq⟩ :=
        IH d s hg.1 hmeas hinv hreachd
      have hs1temp : (visit deps keys m d s).temp = name :: temp0 := by rw [hv_temp, hst]
      have hds : ∀ d' ∈ ds, d' ∈ depsOf deps name :=
        fun d' hd' => hl d' (List.mem_cons_of_mem _ hd')
      obtain ⟨hr_temp, ⟨l2, hr_vis, hr_l2⟩, hr_inv, hr_all, hr_eq⟩ :=
        ih (visit deps keys m d s) hds hs1temp hv_inv
      have hfold : List.foldl (depStep deps keys m name) s (d :: ds) =
          List.foldl (depStep deps keys m name) (visit deps keys m d s) ds := by
        rw [List.foldl_cons, hstep]
      refine ⟨by rw [hfold]; exact hr_temp, ⟨l2 ++ l1, ?_, ?_⟩, by rw [hfold]; exact hr_inv,
        ?_, ?_⟩
      · rw [hfold, hr_vis, hv_vis, List.append_assoc]
      · intro x hx
        rcases List.mem_append.mp hx with hx' | hx'
        · exact hr_l2 x hx'
        · have := hv_l1 x hx'
          rw [hst] at this
          exact this
      · intro d' hd' hgd'
        rw [hfold]
        rcases List.mem_cons.mp hd' with rfl | hd''
        · rcases hv_done with hcase | hcase
          · rw [hst] at hcase
            rcases List.mem_cons.mp hcase with rfl | hcase'
            · exact absurd rfl hgd'.2
            · exact Or.inr hcase'
          · left
            rw [hr_vis]
            exact List.mem_append_right _ hcase
        · exact hr_all d' hd'' hgd'
      · rw [List.foldl_cons, hstep', hv_eq, hfold, hr_eq]
    · have hstep : depStep deps keys m name s d = s := by simp [depStep, hg]
      have hstep' : depStep deps keys (m + 1) name s d = s := by simp [depStep, hg]
      obtain ⟨hr_temp, ⟨l2, hr_vis, hr_l2⟩, hr_inv, hr_all, hr_eq⟩ :=
        ih s (fun d' hd' => hl d' (List.mem_cons_of_mem _ hd')) hst hinv
      have hfold : List.foldl (depStep deps keys m name) s (d :: ds) =
          List.foldl (depStep deps keys m name) s ds := by
        rw [List.foldl_cons, hstep]
      refine ⟨by rw [hfold]; exact hr_temp, ⟨l2, by rw [hfold]; exact hr_vis, hr_l2⟩,
        by rw [hfold]; exact hr_inv, ?_, ?_⟩
      · intro d' hd' hgd'
        rw [hfold]
        rcases List.mem_cons.mp hd' with rfl | hd''
        · exact absurd hgd' hg
        · exact hr_all d' hd'' hgd'
      · rw [List.foldl_cons, hstep', hfold, hr_eq]

/-- The main induction: `visit` satisfies `VisitConcl` whenever the fuel
exceeds the number of keys not yet on the stack. -/
theorem visit_main (deps : List (Str × List Str)) (keys : List Str) :
    ∀ fuel name st, name ∈ keys → mea keys st.temp < fuel →
      Invar deps keys st → (∀ x ∈ st.temp, Reach deps keys x name) →
      VisitConcl deps keys fuel name st := by
  intro fuel
  induction fuel with
  | zero => intro name st _ hm _ _; exact absurd hm (Nat.not_lt_zero _)
  | succ m IH =>
    intro name st hname hmea hinv hreach
    by_cases h1 : name ∈ st.temp
    · have he : visit deps keys (m + 1) name st = st := visit_mem_stop _ _ _ _ _ (Or.inl h1)
      have he2 : visit deps keys (m + 2) name st = st := visit_mem_stop _ _ _ _ _ (Or.inl h1)
      exact ⟨by rw [he], ⟨[], by rw [he]; simp, by simp⟩, by rw [he]; exact hinv,
        Or.inl h1, by rw [he, he2]⟩
    by_cases h2 : name ∈ st.visited
    · have he : visit deps keys (m + 1) name st = st := visit_mem_stop _ _ _ _ _ (Or.inr h2)
      have he2 : visit deps keys (m + 2) name st = st := visit_mem_stop _ _ _ _ _ (Or.inr h2)
      exact ⟨by rw [he], ⟨[], by rw [he]; simp, by simp⟩, by rw [he]; exact hinv,
        Or.inr (by rw [he]; exact h2), by rw [he, he2]⟩
    · obtain ⟨hdisj, hndt, hndv, hres, hord⟩ := hinv
      have hinv0 : Invar deps keys (DfsState.mk st.visited (name :: st.temp) st.result) := by
        refine ⟨?_, ?_, hndv, hres, ?_⟩
        · intro x hx
          rcases List.mem_cons.mp hx with rfl | hx'
          · exact h2
          · exact hdisj x hx'
        · exact List.nodup_cons.mpr ⟨h1, hndt⟩
        · exact hord
      have hm0 : mea keys (name :: st.temp) < m := by
        have := mea_cons_lt keys st.temp name hname h1
        omega
      obtain ⟨hf_temp, ⟨lnew, hf_vis, hf_lnew⟩, hf_inv, hf_all, hf_eq⟩ :=
        fold_main deps keys m IH name hname st.temp hreach hm0
          (depsOf deps name) (DfsState.mk st.visited (name :: st.temp) st.result)
          (fun _ hd => hd) rfl hinv0
      have hvis := visit_succ_go deps keys m name st h1 h2
      have hvis2 := visit_succ_go deps keys (m + 1) name st h1 h2
      set st2 := List.foldl (depStep deps keys m name)
        (DfsState.mk st.visited (name :: st.temp) st.result) (depsOf deps name) with hst2
      obtain ⟨h2disj, h2ndt, h2ndv, h2res, h2ord⟩ := hf_inv
      have htempfinal : st2.temp.erase name = st.temp := by
        rw [hf_temp]
        exact List.erase_cons_head _ _
      have hnamevis : name ∉ st2.visited := by
        refine h2disj name ?_
        rw [hf_temp]
        exact List.mem_cons_self _ _
      refine ⟨?_, ⟨name :: lnew, ?_, ?_⟩, ?_, ?_, ?_⟩
      · rw [hvis]
        exact htempfinal
      · rw [hvis]
        show name :: st2.visited = (name :: lnew) ++ st.visited
        rw [hf_vis]
        rfl
      · intro x hx
        rcases List.mem_cons.mp hx with rfl | hx'
        · exact ⟨hname, h1⟩
        · have := hf_lnew x hx'
          exact ⟨this.1, fun hc => this.2 (List.mem_cons_of_mem _ hc)⟩
      · rw [hvis]
        refine ⟨?_, ?_, ?_, ?_, ?_⟩
        · intro x hx
          show x ∉ name :: st2.visited
          rw [htempfinal] at hx
          intro hc
          rcases List.mem_cons.mp hc with rfl | hc'
          · exact h1 hx
          · exact h2disj x (by rw [hf_temp]; exact List.mem_cons_of_mem _ hx) hc'
        · show (st2.temp.erase name).Nodup
          rw [htempfinal]
          exact hndt
        · exact List.nodup_cons.mpr ⟨hnamevis, h2ndv⟩
        · show st2.result ++ [name] = (name :: st2.visited).reverse
          rw [List.reverse_cons, h2res]
        · intro pre v suf hsp d hedge
          rcases append_singleton_split st2.result pre suf name v hsp with
            ⟨hpre, hv, _⟩ | ⟨s2, _, hl⟩
          · subst hv
            obtain ⟨hd_dep, hd_keys, hd_ne⟩ := hedge
            rcases hf_all d hd_dep ⟨hd_keys, hd_ne⟩ with hcase | hcase
            · right
              rw [hpre, h2res, List.mem_reverse]
              exact hcase
            · exact Or.inl (hreach d hcase)
          · exact h2ord pre v s2 hl d hedge
      · right
        rw [hvis]
        exact List.mem_cons_self _ _
      · rw [hvis2, hvis, hf_eq]

/-! ## The outer loop and the resulting facts about `topological_sort` -/

theorem topo_fold_main (deps : List (Str × List Str)) (keys : List Str) (fuel : Nat)
    (hf : keys.length < fuel) :
    ∀ ks st, (∀ k ∈ ks, k ∈ keys) → st.temp = [] → Invar deps keys st →
      (List.foldl (topoStep deps keys fuel) st ks).temp = [] ∧
      Invar deps keys (List.foldl (topoStep deps keys fuel) st ks) ∧
      (∃ lnew, (List.foldl (topoStep deps keys fuel) st ks).visited = lnew ++ st.visited ∧
        ∀ x ∈ lnew, x ∈ keys) ∧
      (∀ k ∈ ks, k ∈ (List.foldl (topoStep deps keys fuel) st ks).visited) ∧
      List.foldl (topoStep deps keys (fuel + 1)) st ks =
        List.foldl (topoStep deps keys fuel) st ks := by
  intro ks
  induction ks with
  | nil =>
    intro st _ hst hinv
    exact ⟨hst, hinv, ⟨[], by simp, by simp⟩, by simp, rfl⟩
  | cons k ks ih =>
    intro st hks hst hinv
    by_cases hkv : k ∈ st.visited
    · have hstep : topoStep deps keys fuel st k = st := by simp [topoStep, hkv]
      have hstep' : topoStep deps keys (fuel + 1) st k = st := by simp [topoStep, hkv]
      obtain ⟨hr_temp, hr_inv, ⟨l2, hr_vis, hr_l2⟩, hr_all, hr_eq⟩ :=
        ih st (fun x hx => hks x (List.mem_cons_of_mem _ hx)) hst hinv
      refine ⟨by rw [List.foldl_cons, hstep]; exact hr_temp,
        by rw [List.foldl_cons, hstep]; exact hr_inv,
        ⟨l2, by rw [List.foldl_cons, hstep]; exact hr_vis, hr_l2⟩, ?_, ?_⟩
      · intro x hx
        rw [List.foldl_cons, hstep]
        rcases List.mem_cons.mp hx with rfl | hx'
        · rw [hr_vis]
          exact List.mem_append_right _ hkv
        · exact hr_all x hx'
      · rw [List.foldl_cons, hstep', List.foldl_cons, hstep, hr_eq]
    · have hkk : k ∈ keys := hks k (List.mem_cons_self _ _)
      have hmeas : mea keys st.temp < fuel := by rw [hst, mea_nil]; exact hf
      have hreach : ∀ x ∈ st.temp, Reach deps keys x k := by rw [hst]; simp
      obtain ⟨hv_temp, ⟨l1, hv_vis, hv_l1⟩, hv_inv, hv_done, hv_eq⟩ :=
        visit_main deps keys fuel k st hkk hmeas hinv hreach
      have hstep : topoStep deps keys fuel st k = visit deps keys fuel k st := by
        simp [topoStep, hkv]
      have hstep' : topoStep deps keys (fuel + 1) st k =
          visit deps keys fuel k st := by
        simp only [topoStep, if_neg hkv]
        exact hv_eq
      have hs1temp : (visit deps keys fuel k st).temp = [] := by rw [hv_temp, hst]
      obtain ⟨hr_temp, hr_inv, ⟨l2, hr_vis, hr_l2⟩, hr_all, hr_eq⟩ :=
        ih (visit deps keys fuel k st) (fun x hx => hks x (List.mem_cons_of_mem _ hx))
          hs1temp hv_inv
      have hkdone : k ∈ (visit deps keys fuel k st).visited := by
        rcases hv_done with hcase | hcase
        · rw [hst] at hcase; cases hcase
        · exact hcase
      refine ⟨by rw [List.foldl_cons, hstep]; exact hr_temp,
        by rw [List.foldl_cons, hstep]; exact hr_inv,
        ⟨l2 ++ l1, ?_, ?_⟩, ?_, ?_⟩
      · rw [List.foldl_cons, hstep, hr_vis, hv_vis, List.append_assoc]
      · intro x hx
        rcases List.mem_append.mp hx with hx' | hx'
        · exact hr_l2 x hx'
        · exact (hv_l1 x hx').1
      · intro x hx
        rw [List.foldl_cons, hstep]
        rcases List.mem_cons.mp hx with rfl | hx'
        · rw [hr_vis]
          exact List.mem_append_right _ hkdone
        · exact hr_all x hx'
      · rw [List.foldl_cons, hstep', List.foldl_cons, hstep, hr_eq]

def initState : DfsState := DfsState.mk [] [] []

theorem invar_init (deps : List (Str × List Str)) (keys : List Str) :
    Invar deps keys initState := by
  refine ⟨?_, List.nodup_nil, List.nodup_nil, rfl, ?_⟩
  · intro x hx
    exact absurd hx (List.not_mem_nil x)
  · intro pre v suf h
    have h' : pre ++ v :: suf = ([] : List Str) := h.symm
    simp at h'

theorem topo_sort_nodup_mem (keys : List Str) (deps : List (Str × List Str)) :
    (topological_sort keys deps).Nodup ∧
    (∀ n, n ∈ topological_sort keys deps ↔ n ∈ keys) := by
  obtain ⟨_, hinv, ⟨lnew, hvis, hlnew⟩, hall, _⟩ :=
    topo_fold_main deps keys (keys.length + 1) (Nat.lt_succ_self _) keys initState
      (fun _ h => h) rfl (invar_init deps keys)
  have hres : topological_sort keys deps =
      (List.foldl (topoStep deps keys (keys.length + 1)) initState keys).visited.reverse :=
    hinv.2.2.2.1
  constructor
  · rw [hres]
    exact List.nodup_reverse.mpr hinv.2.2.1
  · intro n
    rw [hres, List.mem_reverse]
    constructor
    · intro h
      rw [hvis] at h
      rcases List.mem_append.mp h with h' | h'
      · exact hlnew n h'
      · simp [initState] at h'
    · exact hall n

/-- Dependencies-before-dependents: if `D` has the retained dependency `N` and
no dependency path leads from `N` back to `D`, then `N` is emitted before `D`. -/
theorem topo_ordering_main (keys : List Str) (deps : List (Str × List Str)) (D N : Str)
    (hD : D ∈ keys) (hNdep : N ∈ depsOf deps D) (hN : N ∈ keys) (hne : N ≠ D)
    (hnr : ¬ Reach deps keys N D) :
    ∃ l1 l2 l3, topological_sort keys deps = l1 ++ N :: (l2 ++ D :: l3) := by
  obtain ⟨_, hinv, _, hall, _⟩ :=
    topo_fold_main deps keys (keys.length + 1) (Nat.lt_succ_self _) keys initState
      (fun _ h => h) rfl (invar_init deps keys)
  have hres2 : topological_sort keys deps =
      (List.foldl (topoStep deps keys (keys.length + 1)) initState keys).visited.reverse :=
    hinv.2.2.2.1
  have hDr : D ∈ topological_sort keys deps := by
    rw [hres2, List.mem_reverse]
    exact hall D hD
  obtain ⟨pre, suf, hsplit⟩ := List.append_of_mem hDr
  have hsplit' : (List.foldl (topoStep deps keys (keys.length + 1)) initState keys).result =
      pre ++ D :: suf := hsplit
  have hord := hinv.2.2.2.2 pre D suf hsplit' N ⟨hNdep, hN, hne⟩
  rcases hord with hreach | hmem
  · exact absurd hreach hnr
  · obtain ⟨l1, l2, hpre⟩ := List.append_of_mem hmem
    refine ⟨l1, l2, suf, ?_⟩
    rw [hsplit, hpre, List.append_assoc, List.cons_append]

/-- Fuel-insensitivity above the key count: the embedded recursion has reached
its fixed point, which is how the Python recursion (whose stack depth is
bounded by the number of keys) terminates. -/
theorem topo_fuel_stable (keys : List Str) (deps : List (Str × List Str)) :
    ∀ fuel, keys.length < fuel →
      topological_sortFuel fuel keys deps = topological_sort keys deps := by
  have one : ∀ f, keys.length < f →
      topological_sortFuel (f + 1) keys deps = topological_sortFuel f keys deps := by
    intro f hf
    obtain ⟨_, _, _, _, heq⟩ :=
      topo_fold_main deps keys f hf keys initState (fun _ h => h) rfl (invar_init deps keys)
    exact congrArg DfsState.result heq
  have hd : ∀ d, topological_sortFuel (keys.length + 1 + d) keys deps =
      topological_sort keys deps := by
    intro d
    induction d with
    | zero => rfl
    | succ e ihe =>
      have h1 : keys.length + 1 + (e + 1) = (keys.length + 1 + e) + 1 := by omega
      rw [h1, one (keys.length + 1 + e) (by omega), ihe]
  intro fuel hfuel
  obtain ⟨d, rfl⟩ : ∃ d, fuel = keys.length + 1 + d := ⟨fuel - (keys.length + 1), by omega⟩
  exact hd d

/-! ## Keys already in dependency order are left unchanged -/

theorem topo_sorted_fold (deps : List (Str × List Str)) (keys2 : List Str)
    (hnd : keys2.Nodup) (fuel : Nat)
    (hsorted : ∀ D d, D ∈ keys2 → d ∈ depsOf deps D → d ∈ keys2 → d ≠ D →
      ∃ l1 l2 l3, keys2 = l1 ++ d :: (l2 ++ D :: l3)) :
    ∀ rest P, keys2 = P ++ rest →
      List.foldl (topoStep deps keys2 (fuel + 1)) (DfsState.mk P.reverse [] P) rest =
        DfsState.mk keys2.reverse [] keys2 := by
  intro rest
  induction rest with
  | nil =>
    intro P hP
    rw [List.foldl_nil, hP, List.append_nil]
  | cons k rest' ih =>
    intro P hP
    have hkkeys : k ∈ keys2 := by
      rw [hP]; exact List.mem_append_right _ (List.mem_cons_self _ _)
    have hkP : k ∉ P := by
      intro hc
      have hnd' := hnd
      rw [hP] at hnd'
      exact (List.disjoint_of_nodup_append hnd') hc (List.mem_cons_self _ _)
    have hkvis : k ∉ (DfsState.mk P.reverse ([] : List Str) P).visited := by
      show k ∉ P.reverse
      rw [List.mem_reverse]
      exact hkP
    have hstep : topoStep deps keys2 (fuel + 1) (DfsState.mk P.reverse [] P) k =
        visit deps keys2 (fuel + 1) k (DfsState.mk P.reverse [] P) := by
      simp only [topoStep, if_neg hkvis]
    have hfold_id : List.foldl (depStep deps keys2 fuel k)
        (DfsState.mk P.reverse [k] P) (depsOf deps k) = DfsState.mk P.reverse [k] P := by
      apply foldl_id_of_fixed
      intro d hd
      by_cases hg : d ∈ keys2 ∧ d ≠ k
      · have hdP : d ∈ P := by
          obtain ⟨l1, l2, l3, hkeys⟩ := hsorted k d hkkeys hd hg.1 hg.2
          have hkeys' : (l1 ++ d :: l2) ++ k :: l3 = P ++ k :: rest' := by
            rw [← hP, hkeys]
            simp [List.append_assoc]
          have hnd2 : ((l1 ++ d :: l2) ++ k :: l3).Nodup := by
            rw [hkeys']
            rw [hP] at hnd
            exact hnd
          obtain ⟨hPeq, _⟩ := split_unique_of_nodup (l1 ++ d :: l2) P hkeys' hnd2
          rw [← hPeq]
          exact List.mem_append_right _ (List.mem_cons_self _ _)
        have : d ∈ (DfsState.mk P.reverse [k] P).visited := by
          show d ∈ P.reverse
          rw [List.mem_reverse]
          exact hdP
        simp only [depStep, if_pos hg]
        exact visit_mem_stop _ _ _ _ _ (Or.inr this)
      · simp only [depStep, if_neg hg]
    have hvisit : visit deps keys2 (fuel + 1) k (DfsState.mk P.reverse [] P) =
        DfsState.mk (P ++ [k]).reverse [] (P ++ [k]) := by
      rw [visit_succ_go deps keys2 fuel k (DfsState.mk P.reverse [] P)
        (List.not_mem_nil k) hkvis]
      show DfsState.mk
          (k :: (List.foldl (depStep deps keys2 fuel k) (DfsState.mk P.reverse [k] P)
            (depsOf deps k)).visited) _ _ = _
      rw [hfold_id]
      show DfsState.mk (k :: P.reverse) ([k].erase k) (P ++ [k]) = _
      rw [List.erase_cons_head]
      congr 1
      rw [List.reverse_append]
      rfl
    rw [List.foldl_cons, hstep, hvisit]
    exact ih (P ++ [k]) (by rw [hP, List.append_assoc]; rfl)

/-- A duplicate-free key list that already lists every retained dependency
before its dependent is returned unchanged by the sorter. -/
theorem topo_sorted_fixed (deps : List (Str × List Str)) (keys2 : List Str)
    (hnd : keys2.Nodup)
    (hsorted : ∀ D d, D ∈ keys2 → d ∈ depsOf deps D → d ∈ keys2 → d ≠ D →
      ∃ l1 l2 l3, keys2 = l1 ++ d :: (l2 ++ D :: l3)) :
    topological_sort keys2 deps = keys2 := by
  have h := topo_sorted_fold deps keys2 hnd keys2.length hsorted keys2 [] rfl
  exact congrArg DfsState.result h

/-- For duplicate-free keys over an acyclic dependency graph the sorter is
idempotent: re-sorting its own output changes nothing. -/
theorem topo_idem_main (keys : List Str) (deps : List (Str × List Str))
    (hnd : keys.Nodup)
    (hacyc : ∀ u v, Edge deps keys u v → ¬ Reach deps keys v u) :
    topological_sort (topological_sort keys deps) deps = topological_sort keys deps := by
  obtain ⟨hndR, hmem⟩ := topo_sort_nodup_mem keys deps
  apply topo_sorted_fixed deps _ hndR
  intro D d hD hdep hdkeys hne
  have hDk : D ∈ keys := (hmem D).mp hD
  have hdk : d ∈ keys := (hmem d).mp hdkeys
  exact topo_ordering_main keys deps D d hDk hdep hdk hne (hacyc D d ⟨hdep, hdk, hne⟩)

/-! ## Self-references are ignored by the sorter, not removed from the mapping -/

/-- Remove every self-reference from the dependency mapping. -/
def stripSelf (deps : List (Str × List Str)) : List (Str × List Str) :=
  deps.map (fun p => (p.1, p.2.filter (fun d => !decide (d = p.1))))

theorem depsOf_stripSelf (deps : List (Str × List Str)) (n : Str) :
    depsOf (stripSelf deps) n = (depsOf deps n).filter (fun d => !decide (d = n)) := by
  induction deps with
  | nil => rfl
  | cons p rest ih =>
    obtain ⟨k, v⟩ := p
    by_cases hk : n = k
    · subst hk
      simp [depsOf, stripSelf, List.lookup]
    · have hbeq : (n == k) = false := beq_eq_false_iff_ne.mpr hk
      simp only [depsOf, stripSelf, List.map_cons, List.lookup, hbeq] at *
      exact ih

theorem visit_stripSelf (deps : List (Str × List Str)) (keys : List Str) :
    ∀ fuel name st,
      visit (stripSelf deps) keys fuel name st = visit deps keys fuel name st := by
  intro fuel
  induction fuel with
  | zero => intro name st; rfl
  | succ m ih =>
    intro name st
    rw [visit_succ, visit_succ]
    by_cases h1 : name ∈ st.temp
    · simp [h1]
    by_cases h2 : name ∈ st.visited
    · simp [h1, h2]
    rw [if_neg h1, if_neg h1, if_neg h2, if_neg h2]
    have hfold : ∀ l s, List.foldl (depStep (stripSelf deps) keys m name) s
        (l.filter (fun d => !decide (d = name))) =
        List.foldl (depStep deps keys m name) s l := by
      intro l
      induction l with
      | nil => intro s; rfl
      | cons d ds ihl =>
        intro s
        by_cases hd : d = name
        · have hneg : ¬ ((fun x => !decide (x = name)) d = true) := by simp [hd]
          have hfe : List.filter (fun x => !decide (x = name)) (d :: ds) =
              List.filter (fun x => !decide (x = name)) ds :=
            List.filter_cons_of_neg hneg
          rw [hfe, List.foldl_cons]
          have hds : depStep deps keys m name s d = s := by
            simp [depStep, hd]
          rw [hds]
          exact ihl s
        · have hpos : (fun x => !decide (x = name)) d = true := by simp [hd]
          have hfe : List.filter (fun x => !decide (x = name)) (d :: ds) =
              d :: List.filter (fun x => !decide (x = name)) ds :=
            List.filter_cons_of_pos hpos
          rw [hfe, List.foldl_cons, List.foldl_cons]
          have hds : depStep (stripSelf deps) keys m name s d = depStep deps keys m name s d := by
            simp only [depStep, ih]
          rw [hds]
          exact ihl _
    show DfsState.mk _ _ _ = DfsState.mk _ _ _
    rw [depsOf_stripSelf, hfold]

/-- Removing self-references from the dependency mapping does not change the
order produced by the sorter. -/
theorem topo_stripSelf (keys : List Str) (deps : List (Str × List Str)) :
    topological_sort keys (stripSelf deps) = topological_sort keys deps := by
  have hstep : topoStep (stripSelf deps) keys (keys.length + 1) =
      topoStep deps keys (keys.length + 1) := by
    funext st name
    simp only [topoStep, visit_stripSelf]
  show (List.foldl (topoStep (stripSelf deps) keys (keys.length + 1))
      (DfsState.mk [] [] []) keys).result = _
  rw [hstep]
  rfl

/-! ## Deduplication: first occurrence wins, later ones are logged -/

/-- The kept entries of the dedup loop, given the names seen so far. -/
def firstOccs : List Str → List Extracted → List (Str × Str)
  | _, [] => []
  | seen, f :: rest =>
    if f.name ∈ seen then firstOccs seen rest
    else (f.name, f.text) :: firstOccs (f.name :: seen) rest

/-- The names logged as duplicates, given the names seen so far. -/
def dupsFrom : List Str → List Extracted → List Str
  | _, [] => []
  | seen, f :: rest =>
    if f.name ∈ seen then f.name :: dupsFrom seen rest
    else dupsFrom (f.name :: seen) rest

theorem firstOccs_congr : ∀ (fns : List Extracted) (s1 s2 : List Str),
    (∀ x, x ∈ s1 ↔ x ∈ s2) → firstOccs s1 fns = firstOccs s2 fns := by
  intro fns
  induction fns with
  | nil => intro s1 s2 _; rfl
  | cons f rest ih =>
    intro s1 s2 h
    by_cases hf : f.name ∈ s1
    · have hf2 : f.name ∈ s2 := (h f.name).mp hf
      simp only [firstOccs, if_pos hf, if_pos hf2]
      exact ih s1 s2 h
    · have hf2 : f.name ∉ s2 := fun hc => hf ((h f.name).mpr hc)
      simp only [firstOccs, if_neg hf, if_neg hf2]
      rw [ih (f.name :: s1) (f.name :: s2) (by intro x; simp [List.mem_cons, h x])]

theorem dupsFrom_congr : ∀ (fns : List Extracted) (s1 s2 : List Str),
    (∀ x, x ∈ s1 ↔ x ∈ s2) → dupsFrom s1 fns = dupsFrom s2 fns := by
  intro fns
  induction fns with
  | nil => intro s1 s2 _; rfl
  | cons f rest ih =>
    intro s1 s2 h
    by_cases hf : f.name ∈ s1
    · have hf2 : f.name ∈ s2 := (h f.name).mp hf
      simp only [dupsFrom, if_pos hf, if_pos hf2]
      rw [ih s1 s2 h]
    · have hf2 : f.name ∉ s2 := fun hc => hf ((h f.name).mpr hc)
      simp only [dupsFrom, if_neg hf, if_neg hf2]
      exact ih (f.name :: s1) (f.name :: s2) (by intro x; simp [List.mem_cons, h x])

theorem removeDupsAux_spec : ∀ (fns : List Extracted) (uniq : List (Str × Str)) (dups : List Str),
    removeDupsAux fns uniq dups =
      (uniq ++ firstOccs (uniq.map Prod.fst) fns, dups ++ dupsFrom (uniq.map Prod.fst) fns) := by
  intro fns
  induction fns with
  | nil => intro uniq dups; simp [removeDupsAux, firstOccs, dupsFrom]
  | cons f rest ih =>
    intro uniq dups
    by_cases hf : f.name ∈ uniq.map Prod.fst
    · simp only [removeDupsAux, if_pos hf, firstOccs, dupsFrom]
      rw [ih]
      simp [List.append_assoc]
    · simp only [removeDupsAux, if_neg hf, firstOccs, dupsFrom]
      rw [ih]
      have hkeys : (uniq ++ [(f.name, f.text)]).map Prod.fst = uniq.map Prod.fst ++ [f.name] := by
        simp
      have hiff : ∀ x, x ∈ uniq.map Prod.fst ++ [f.name] ↔ x ∈ f.name :: uniq.map Prod.fst := by
        intro x; simp [List.mem_append, List.mem_cons, or_comm]
      rw [hkeys, firstOccs_congr rest _ _ hiff, dupsFrom_congr rest _ _ hiff]
      simp [List.append_assoc]

theorem removeDups_eq (fns : List Extracted) :
    removeDups fns = (firstOccs [] fns, dupsFrom [] fns) := by
  unfold removeDups
  rw [removeDupsAux_spec]
  simp

theorem firstOccs_count (n : Str) : ∀ (fns : List Extracted) (seen : List Str),
    ((firstOccs seen fns).map Prod.fst).count n =
      if n ∈ seen then 0 else min 1 ((fns.map Extracted.name).count n) := by
  intro fns
  induction fns with
  | nil => intro seen; by_cases h : n ∈ seen <;> simp [firstOccs, h]
  | cons f rest ih =>
    intro seen
    by_cases hf : f.name ∈ seen
    · rw [firstOccs, if_pos hf, ih seen]
      by_cases hn : n ∈ seen
      · simp [hn]
      · have hne : ¬ (n = f.name) := fun hc => hn (hc ▸ hf)
        have hfe : ¬ (f.name = n) := fun hc => hne hc.symm
        simp [hn, List.count_cons, hfe]
    · rw [firstOccs, if_neg hf]
      by_cases hfn : f.name = n
      · subst hfn
        have hzero : ((firstOccs (f.name :: seen) rest).map Prod.fst).count f.name = 0 := by
          rw [ih (f.name :: seen), if_pos (List.mem_cons_self _ _)]
        have hL : (((f.name, f.text) :: firstOccs (f.name :: seen) rest).map
            Prod.fst).count f.name = 1 := by
          simp [List.count_cons, hzero]
        rw [hL, if_neg hf]
        have hR : ((f :: rest).map Extracted.name).count f.name =
            (rest.map Extracted.name).count f.name + 1 := by
          simp [List.count_cons]
        rw [hR]
        exact (min_eq_left (by omega)).symm
      · have hn2iff : n ∉ f.name :: seen ↔ n ∉ seen := by
          constructor
          · intro hc hcc; exact hc (List.mem_cons_of_mem _ hcc)
          · intro hc hcc
            rcases List.mem_cons.mp hcc with hc' | hc'
            · exact hfn hc'.symm
            · exact hc hc'
        have hnfn : ¬ (n = f.name) := fun hc => hfn hc.symm
        have hL : (((f.name, f.text) :: firstOccs (f.name :: seen) rest).map
            Prod.fst).count n =
            ((firstOccs (f.name :: seen) rest).map Prod.fst).count n := by
          simp [List.count_cons, hnfn]
        have hR : ((f :: rest).map Extracted.name).count n =
            (rest.map Extracted.name).count n := by
          simp [List.count_cons, hnfn]
        rw [hL, hR, ih (f.name :: seen)]
        by_cases hn : n ∈ seen
        · rw [if_pos (List.mem_cons_of_mem _ hn), if_pos hn]
        · rw [if_neg (hn2iff.mpr hn), if_neg hn]

theorem firstOccs_lookup (n : Str) : ∀ (fns : List Extracted) (seen : List Str), n ∉ seen →
    List.lookup n (firstOccs seen fns) =
      (fns.find? (fun e => e.name == n)).map Extracted.text := by
  intro fns
  induction fns with
  | nil => intro seen _; rfl
  | cons f rest ih =>
    intro seen hn
    by_cases hf : f.name ∈ seen
    · have hne : ¬ ((fun e => e.name == n) f = true) := by
        intro hc
        exact hn ((eq_of_beq hc) ▸ hf)
      have hfind : List.find? (fun e => e.name == n) (f :: rest) =
          List.find? (fun e => e.name == n) rest := List.find?_cons_of_neg _ hne
      rw [firstOccs, if_pos hf]
      show _ = (List.find? (fun e => e.name == n) (f :: rest)).map Extracted.text
      rw [hfind]
      exact ih seen hn
    · rw [firstOccs, if_neg hf]
      by_cases hfn : f.name = n
      · have hbeq : (n == f.name) = true := beq_iff_eq.mpr hfn.symm
        have hpos : ((fun e => e.name == n) f = true) := beq_iff_eq.mpr hfn
        have hfind : List.find? (fun e => e.name == n) (f :: rest) = some f :=
          List.find?_cons_of_pos _ hpos
        show _ = (List.find? (fun e => e.name == n) (f :: rest)).map Extracted.text
        rw [hfind]
        simp [List.lookup, hbeq]
      · have hbeq : (n == f.name) = false := by
          rw [beq_eq_false_iff_ne]
          exact fun hc => hfn hc.symm
        have hne : ¬ ((fun e => e.name == n) f = true) := by
          intro hc; exact hfn (eq_of_beq hc)
        have hfind : List.find? (fun e => e.name == n) (f :: rest) =
            List.find? (fun e => e.name == n) rest := List.find?_cons_of_neg _ hne
        have hn2 : n ∉ f.name :: seen := by
          intro hc
          rcases List.mem_cons.mp hc with hc' | hc'
          · exact hfn hc'.symm
          · exact hn hc'
        show _ = (List.find? (fun e => e.name == n) (f :: rest)).map Extracted.text
        rw [hfind]
        simp only [List.lookup, hbeq]
        exact ih (f.name :: seen) hn2

theorem dupsFrom_count (n : Str) : ∀ (fns : List Extracted) (seen : List Str),
    (dupsFrom seen fns).count n =
      if n ∈ seen then (fns.map Extracted.name).count n
      else (fns.map Extracted.name).count n - 1 := by
  intro fns
  induction fns with
  | nil => intro seen; by_cases h : n ∈ seen <;> simp [dupsFrom, h]
  | cons f rest ih =>
    intro seen
    by_cases hf : f.name ∈ seen
    · rw [dupsFrom, if_pos hf, List.count_cons, ih seen]
      by_cases hn : n ∈ seen
      · simp only [if_pos hn, List.map_cons, List.count_cons]
      · have hne : ¬ (n = f.name) := fun hc => hn (hc ▸ hf)
        have hfe : ¬ (f.name = n) := fun hc => hne hc.symm
        simp only [if_neg hn, List.map_cons, List.count_cons, beq_iff_eq, hne, hfe, if_false]
        omega
    · rw [dupsFrom, if_neg hf, ih (f.name :: seen)]
      by_cases hfn : f.name = n
      · have h1 : n ∈ f.name :: seen := by rw [hfn]; exact List.mem_cons_self _ _
        have h2 : n ∉ seen := fun hc => hf (by rw [hfn]; exact hc)
        rw [if_pos h1, if_neg h2]
        simp only [List.map_cons, List.count_cons, hfn]
        simp
      · have hne : ¬ (n = f.name) := fun hc => hfn hc.symm
        have hR : ((f :: rest).map Extracted.name).count n =
            (rest.map Extracted.name).count n := by
          simp [List.count_cons, hfn]
        rw [hR]
        by_cases hn : n ∈ seen
        · rw [if_pos (List.mem_cons_of_mem _ hn), if_pos hn]
        · have hn2 : n ∉ f.name :: seen := by
            intro hc
            rcases List.mem_cons.mp hc with hc' | hc'
            · exact hfn hc'.symm
            · exact hn hc'
          rw [if_neg hn2, if_neg hn]

theorem firstOccs_keys_nodup_notin : ∀ (fns : List Extracted) (seen : List Str),
    ((firstOccs seen fns).map Prod.fst).Nodup ∧
      ∀ x ∈ (firstOccs seen fns).map Prod.fst, x ∉ seen := by
  intro fns
  induction fns with
  | nil => intro seen; exact ⟨List.nodup_nil, by simp [firstOccs]⟩
  | cons f rest ih =>
    intro seen
    by_cases hf : f.name ∈ seen
    · rw [firstOccs, if_pos hf]
      exact ih seen
    · rw [firstOccs, if_neg hf]
      obtain ⟨hnd, hnin⟩ := ih (f.name :: seen)
      constructor
      · rw [List.map_cons]
        refine List.nodup_cons.mpr ⟨?_, hnd⟩
        intro hc
        exact (hnin f.name hc) (List.mem_cons_self _ _)
      · intro x hx
        rw [List.map_cons] at hx
        rcases List.mem_cons.mp hx with rfl | hx'
        · exact hf
        · exact fun hc => (hnin x hx') (List.mem_cons_of_mem _ hc)

theorem firstOccs_keys_sub : ∀ (fns : List Extracted) (seen : List Str),
    ∀ x ∈ (firstOccs seen fns).map Prod.fst, x ∈ fns.map Extracted.name := by
  intro fns
  induction fns with
  | nil => intro seen x hx; simp [firstOccs] at hx
  | cons f rest ih =>
    intro seen x hx
    by_cases hf : f.name ∈ seen
    · rw [firstOccs, if_pos hf] at hx
      rw [List.map_cons]
      exact List.mem_cons_of_mem _ (ih seen x hx)
    · rw [firstOccs, if_neg hf, List.map_cons] at hx
      rw [List.map_cons]
      rcases List.mem_cons.mp hx with rfl | hx'
      · exact List.mem_cons_self _ _
      · exact List.mem_cons_of_mem _ (ih (f.name :: seen) x hx')

/-- The keys of `unique_functions` are duplicate-free. -/
theorem removeDups_keys_nodup (fns : List Extracted) :
    ((removeDups fns).1.map Prod.fst).Nodup := by
  rw [removeDups_eq]
  exact (firstOccs_keys_nodup_notin fns []).1

/-- Every retained key names an extracted declaration. -/
theorem removeDups_keys_sub (fns : List Extracted) :
    ∀ x ∈ (removeDups fns).1.map Prod.fst, x ∈ fns.map Extracted.name := by
  rw [removeDups_eq]
  exact firstOccs_keys_sub fns []

/-! ## Splitting a list at the occurrences of a repeated name -/

theorem count_pos_split (n : Str) : ∀ fns : List Extracted,
    1 ≤ (fns.map Extracted.name).count n →
    ∃ A e B, fns = A ++ e :: B ∧ e.name = n ∧ ∀ a ∈ A, a.name ≠ n := by
  intro fns
  induction fns with
  | nil => intro h; simp at h
  | cons f rest ih =>
    intro h
    by_cases hf : f.name = n
    · exact ⟨[], f, rest, rfl, hf, by simp⟩
    · have h' : 1 ≤ (rest.map Extracted.name).count n := by
        rw [List.map_cons, List.count_cons] at h
        have hne : ¬ ((f.name == n) = true) := by
          rw [beq_iff_eq]
          exact hf
        rw [if_neg hne] at h
        omega
      obtain ⟨A, e, B, hsp, he, hA⟩ := ih h'
      refine ⟨f :: A, e, B, by rw [hsp]; rfl, he, ?_⟩
      intro a ha
      rcases List.mem_cons.mp ha with rfl | ha'
      · exact hf
      · exact hA a ha'

theorem count_split_parts (n : Str) (A : List Extracted) (e : Extracted) (B : List Extracted)
    (he : e.name = n) :
    (((A ++ e :: B).map Extracted.name).count n) =
      ((A.map Extracted.name).count n) + 1 + ((B.map Extracted.name).count n) := by
  have hbeq : (e.name == n) = true := by rw [beq_iff_eq, he]
  rw [List.map_append, List.count_append, List.map_cons, List.count_cons, if_pos hbeq]
  omega

theorem count_zero_names (n : Str) (A : List Extracted)
    (h : (A.map Extracted.name).count n = 0) : ∀ a ∈ A, a.name ≠ n := by
  intro a ha hc
  rw [List.count_eq_zero] at h
  exact h (List.mem_map.mpr ⟨a, ha, hc⟩)

theorem count_two_split (fns : List Extracted) (n : Str)
    (h : (fns.map Extracted.name).count n = 2) :
    ∃ A e1 B e2 C, fns = A ++ e1 :: (B ++ e2 :: C) ∧ e1.name = n ∧ e2.name = n ∧
      (∀ a ∈ A, a.name ≠ n) ∧ (∀ b ∈ B, b.name ≠ n) ∧ (∀ c ∈ C, c.name ≠ n) := by
  obtain ⟨A, e1, B', hsp, he1, hA⟩ := count_pos_split n fns (by omega)
  have hcA : (A.map Extracted.name).count n = 0 := by
    rw [List.count_eq_zero]
    intro hc
    obtain ⟨a, ha, hEq⟩ := List.mem_map.mp hc
    exact hA a ha hEq
  have hcB' : (B'.map Extracted.name).count n = 1 := by
    have := count_split_parts n A e1 B' he1
    rw [← hsp, h, hcA] at this
    omega
  obtain ⟨B, e2, C, hsp2, he2, hB⟩ := count_pos_split n B' (by omega)
  have hcC : (C.map Extracted.name).count n = 0 := by
    have hcB : (B.map Extracted.name).count n = 0 := by
      rw [List.count_eq_zero]
      intro hc
      obtain ⟨b, hb, hEq⟩ := List.mem_map.mp hc
      exact hB b hb hEq
    have := count_split_parts n B e2 C he2
    rw [← hsp2, hcB', hcB] at this
    omega
  exact ⟨A, e1, B, e2, C, by rw [hsp, hsp2], he1, he2, hA, hB, count_zero_names n C hcC⟩

theorem find?_first (n : Str) : ∀ (A : List Extracted) (e1 : Extracted) (rest : List Extracted),
    (∀ a ∈ A, a.name ≠ n) → e1.name = n →
    List.find? (fun e => e.name == n) (A ++ e1 :: rest) = some e1 := by
  intro A
  induction A with
  | nil =>
    intro e1 rest _ he
    have hpos : ((fun e => e.name == n) e1 = true) := beq_iff_eq.mpr he
    rw [List.nil_append]
    exact List.find?_cons_of_pos _ hpos
  | cons a A' ih =>
    intro e1 rest hA he
    have hneg : ¬ ((fun e => e.name == n) a = true) := by
      intro hc
      exact hA a (List.mem_cons_self _ _) (eq_of_beq hc)
    have hfind : List.find? (fun e => e.name == n) (a :: (A' ++ e1 :: rest)) =
        List.find? (fun e => e.name == n) (A' ++ e1 :: rest) :=
      List.find?_cons_of_neg _ hneg
    rw [List.cons_append, hfind]
    exact ih e1 rest (fun x hx => hA x (List.mem_cons_of_mem _ hx)) he

/-- The packaged deduplication fact: with a name occurring exactly twice in a
start-sorted extraction list, exactly the earlier occurrence is kept (its text
is what the name maps to), and the name is logged exactly once. -/
theorem dedup_two_main (fns : List Extracted) (n : Str)
    (hp : fns.Pairwise (fun a b => a.startPos < b.startPos))
    (hc : (fns.map Extracted.name).count n = 2) :
    ∃ e1 e2, e1 ∈ fns ∧ e2 ∈ fns ∧ e1.name = n ∧ e2.name = n ∧
      e1.startPos < e2.startPos ∧
      List.lookup n (removeDups fns).1 = some e1.text ∧
      ((removeDups fns).1.map Prod.fst).count n = 1 ∧
      (removeDups fns).2.count n = 1 ∧
      (∀ x ∈ fns, x.name = n → x = e1 ∨ x = e2) := by
  obtain ⟨A, e1, B, e2, C, hsp, he1, he2, hA, hB, hC⟩ := count_two_split fns n hc
  have hmem1 : e1 ∈ fns := by rw [hsp]; exact List.mem_append_right _ (List.mem_cons_self _ _)
  have hmem2 : e2 ∈ fns := by
    rw [hsp]
    refine List.mem_append_right _ (List.mem_cons_of_mem _ ?_)
    exact List.mem_append_right _ (List.mem_cons_self _ _)
  have hlt : e1.startPos < e2.startPos := by
    have hsub : List.Sublist (e1 :: (B ++ e2 :: C)) fns := by
      rw [hsp]
      exact List.sublist_append_right A _
    have hpw := hp.sublist hsub
    have := (List.pairwise_cons.mp hpw).1
    exact this e2 (List.mem_append_right _ (List.mem_cons_self _ _))
  refine ⟨e1, e2, hmem1, hmem2, he1, he2, hlt, ?_, ?_, ?_, ?_⟩
  · rw [removeDups_eq]
    show List.lookup n (firstOccs [] fns) = some e1.text
    rw [firstOccs_lookup n fns [] (List.not_mem_nil n), hsp, find?_first n A e1 _ hA he1]
    rfl
  · rw [removeDups_eq]
    show ((firstOccs [] fns).map Prod.fst).count n = 1
    rw [firstOccs_count n fns [], if_neg (List.not_mem_nil n), hc]
    rfl
  · rw [removeDups_eq]
    show (dupsFrom [] fns).count n = 1
    rw [dupsFrom_count n fns [], if_neg (List.not_mem_nil n), hc]
  · intro x hx hxn
    rw [hsp] at hx
    rcases List.mem_append.mp hx with hx' | hx'
    · exact absurd hxn (hA x hx')
    · rcases List.mem_cons.mp hx' with rfl | hx''
      · exact Or.inl rfl
      · rcases List.mem_append.mp hx'' with hx3 | hx3
        · exact absurd hxn (hB x hx3)
        · rcases List.mem_cons.mp hx3 with rfl | hx4
          · exact Or.inr rfl
          · exact absurd hxn (hC x hx4)

/-! ## Splitting into lines and joining them back -/

theorem splitLines_ne_nil : ∀ s : Str, splitLines s ≠ [] := by
  intro s
  cases s with
  | nil => simp [splitLines]
  | cons c cs =>
    rw [splitLines]
    rcases h : splitLines cs with _ | ⟨l, ls⟩
    · simp
    · by_cases hc : c = '\n' <;> simp [hc]

theorem joinLines_splitLines : ∀ s : Str, joinLines (splitLines s) = s := by
  intro s
  induction s with
  | nil => rfl
  | cons c cs ih =>
    rw [splitLines]
    rcases h : splitLines cs with _ | ⟨l, ls⟩
    · exact absurd h (splitLines_ne_nil cs)
    · rw [h] at ih
      show joinLines (if c = '\n' then [] :: l :: ls else (c :: l) :: ls) = c :: cs
      by_cases hc : c = '\n'
      · rw [if_pos hc, hc]
        show ([] : Str) ++ '\n' :: joinLines (l :: ls) = '\n' :: cs
        rw [List.nil_append, ih]
      · rw [if_neg hc]
        cases ls with
        | nil =>
          show c :: l = c :: cs
          rw [show joinLines [l] = l from rfl] at ih
          rw [ih]
        | cons l2 ls2 =>
          show (c :: l) ++ '\n' :: joinLines (l2 :: ls2) = c :: cs
          rw [List.cons_append]
          have : l ++ '\n' :: joinLines (l2 :: ls2) = cs := ih
          rw [this]

theorem joinLines_prefix_mono : ∀ (l1 l2 : List Str), List.IsPrefix l1 l2 →
    List.IsPrefix (joinLines l1) (joinLines l2) := by
  intro l1
  induction l1 with
  | nil => intro l2 _; exact List.nil_prefix
  | cons a l1' ih =>
    intro l2 h
    obtain ⟨t, ht⟩ := h
    subst ht
    cases l1' with
    | nil =>
      cases t with
      | nil => exact List.prefix_refl _
      | cons b t' =>
        show List.IsPrefix (joinLines [a]) (joinLines (a :: b :: t'))
        refine ⟨'\n' :: joinLines (b :: t'), ?_⟩
        rfl
    | cons b l1'' =>
      have hpre : List.IsPrefix (b :: l1'') ((b :: l1'') ++ t) := ⟨t, rfl⟩
      obtain ⟨u, hu⟩ := ih ((b :: l1'') ++ t) hpre
      refine ⟨u, ?_⟩
      show (a ++ '\n' :: joinLines (b :: l1'')) ++ u =
        a ++ '\n' :: joinLines ((b :: l1'') ++ t)
      rw [List.append_assoc, List.cons_append, hu]

/-- The header computed by lines 113-126 is literally a prefix of the input
document. -/
theorem extractHeader_starts_content (content : Str) :
    List.IsPrefix (extractHeader content) content := by
  have h1 : List.IsPrefix (headerLines (splitLines content)) (splitLines content) :=
    List.takeWhile_prefix _
  have h2 := joinLines_prefix_mono _ _ h1
  rw [joinLines_splitLines] at h2
  exact h2

/-- The header is reproduced verbatim at the very front of the output. -/
theorem extractHeader_starts_reorder (content : Str) :
    List.IsPrefix (extractHeader content) (reorder content) := by
  show List.IsPrefix (extractHeader content)
    (extractHeader content ++ "\n\n".toList ++ _ ++ _)
  rw [List.append_assoc, List.append_assoc]
  exact ⟨_, rfl⟩

/-! ## Rank arguments for concrete acyclicity -/

/-- Membership in a duplicate-free list means count one (stated for whatever
lawful `BEq` instance the count uses). -/
theorem count_one_of_nodup_mem {α} [BEq α] [LawfulBEq α] {l : List α}
    (hnd : l.Nodup) {a : α} (h : a ∈ l) : l.count a = 1 := by
  induction l with
  | nil => cases h
  | cons b l ih =>
    rw [List.count_cons]
    rcases List.mem_cons.mp h with rfl | h'
    · rw [if_pos (by simp), List.count_eq_zero.mpr (List.nodup_cons.mp hnd).1]
    · have hne : b ≠ a := fun hc => (List.nodup_cons.mp hnd).1 (hc ▸ h')
      rw [if_neg (by simp [hne]), ih (List.nodup_cons.mp hnd).2 h']

/-- A rank that strictly drops along every edge rules out every cycle. -/
theorem no_cycle_of_rank (deps : List (Str × List Str)) (keys : List Str)
    (rank : Str → Nat) (h : ∀ u v, Edge deps keys u v → rank v < rank u) :
    ∀ u v, Edge deps keys u v → ¬ Reach deps keys v u := by
  intro u v he hr
  have h1 := rank_le_of_reach deps keys rank h v u hr
  have h2 := h u v he
  omega

/-- A two-node witness graph: `b` depends on `a`. -/
def depsW : List (Str × List Str) := [("b".toList, ["a".toList])]

def keysW : List Str := ["b".toList, "a".toList]

theorem depsW_rank : ∀ u v, Edge depsW keysW u v →
    (if v = "b".toList then 1 else 0) < (if u = "b".toList then 1 else 0) := by
  intro u v hE
  obtain ⟨hv, _, hne⟩ := hE
  by_cases hu : u = "b".toList
  · subst hu
    have hd : depsOf depsW "b".toList = ["a".toList] := by decide
    rw [hd] at hv
    have hva : v = "a".toList := by simpa using hv
    subst hva
    decide
  · have h1 : (u == (['b'] : Str)) = false := beq_eq_false_iff_ne.mpr hu
    have hd : depsOf depsW u = [] := by
      unfold depsOf depsW
      simp [List.lookup, h1]
    rw [hd] at hv
    cases hv

theorem depsW_acyclic : ∀ u v, Edge depsW keysW u v → ¬ Reach depsW keysW v u :=
  no_cycle_of_rank depsW keysW _ depsW_rank

/-! ## Concrete documents used by the claims -/

/-- A function whose braces never balance before end-of-document. -/
def docC6 : Str := "let f = (x) : int => \x7b 1".toList

/-- A single function; its own name occurs in its header. -/
def docC7 : Str := "let f = (x) : int => \x7b 1 \x7d".toList

/-- Two independent functions followed by a type that textually mentions `g`. -/
def docC8 : Str :=
  ("let f = () : int => \x7b 1 \x7d\n\nlet g = () : int => \x7b 2 \x7d\n\ntype t = g").toList

/-- Two function declarations sharing the name `a`. -/
def docC4 : Str :=
  "let a = (x) : int => \x7b 1 \x7d\n\nlet a = (y) : int => \x7b 2 \x7d".toList

/-- A type declaration and a function declaration sharing the name `a`. -/
def docC9 : Str := "type a = 3\n\nlet a = (x) : int => \x7b 1 \x7d".toList

/-- A type declaration with no blank line before the next declaration. -/
def docC10 : Str := "type t = int\nlet f = () : int => \x7b 1 \x7d".toList

/-- Number of occurrences of `pat` as a contiguous substring of `l`. -/
def countSub (pat l : Str) : Nat :=
  l.tails.countP (fun t => pat.isPrefixOf t)

/-! ## The claims -/

/-- Claim C1: for every input, the name list produced by the topological
sorter is a permutation of the deduplicated declaration names — its length
equals the number of unique extracted declarations, it contains each retained
name exactly once, and it contains no name that was not extracted. -/
theorem c1_topo_permutation (fns : List Extracted) (deps : List (Str × List Str)) :
    (topological_sort ((removeDups fns).1.map Prod.fst) deps).length =
      ((removeDups fns).1.map Prod.fst).length ∧
    (∀ n ∈ (removeDups fns).1.map Prod.fst,
      (topological_sort ((removeDups fns).1.map Prod.fst) deps).count n = 1) ∧
    (∀ n ∈ topological_sort ((removeDups fns).1.map Prod.fst) deps,
      n ∈ fns.map Extracted.name) := by
  obtain ⟨hnd, hmem⟩ := topo_sort_nodup_mem ((removeDups fns).1.map Prod.fst) deps
  refine ⟨?_, ?_, ?_⟩
  · have hknd := removeDups_keys_nodup fns
    have hperm := (List.perm_ext_iff_of_nodup hnd hknd).mpr hmem
    exact hperm.length_eq
  · intro n hn
    exact count_one_of_nodup_mem hnd ((hmem n).mpr hn)
  · intro n hn
    exact removeDups_keys_sub fns n ((hmem n).mp hn)

theorem c1_topo_permutation_witness :
    (topological_sort ((removeDups (extract_functions docC7)).1.map Prod.fst)
        (dependenciesOf (removeDups (extract_functions docC7)).1)).length =
      ((removeDups (extract_functions docC7)).1.map Prod.fst).length ∧
    (topological_sort ((removeDups (extract_functions docC7)).1.map Prod.fst)
        (dependenciesOf (removeDups (extract_functions docC7)).1)).count "f".toList = 1 :=
  ⟨(c1_topo_permutation (extract_functions docC7)
      (dependenciesOf (removeDups (extract_functions docC7)).1)).1,
   (c1_topo_permutation (extract_functions docC7)
      (dependenciesOf (removeDups (extract_functions docC7)).1)).2.1 "f".toList (by decide)⟩

/-- Claim C2: for retained declarations `D` and `N` with `N` in `D`'s
dependency set (`N` retained, `N ≠ D`) and no dependency cycle through the
edge `D → N` (no dependency path from `N` back to `D`), `N` precedes `D` in
the sorter's output. -/
theorem c2_topo_ordering (keys : List Str) (deps : List (Str × List Str)) (D N : Str)
    (hD : D ∈ keys) (hNdep : N ∈ depsOf deps D) (hN : N ∈ keys) (hne : N ≠ D)
    (hnr : ¬ Reach deps keys N D) :
    ∃ l1 l2 l3, topological_sort keys deps = l1 ++ N :: (l2 ++ D :: l3) :=
  topo_ordering_main keys deps D N hD hNdep hN hne hnr

theorem c2_topo_ordering_witness :
    ("b".toList ∈ keysW) ∧ ("a".toList ∈ depsOf depsW "b".toList) ∧
    (∃ l1 l2 l3, topological_sort keysW depsW =
      l1 ++ "a".toList :: (l2 ++ "b".toList :: l3)) :=
  ⟨by decide, by decide,
   c2_topo_ordering keysW depsW "b".toList "a".toList (by decide) (by decide) (by decide)
     (by decide) (depsW_acyclic "b".toList "a".toList ⟨by decide, by decide, by decide⟩)⟩

/-- Claim C3: for every finite key list and dependency mapping — including
self-referential and mutually recursive ones — the sorter terminates (the
embedded recursion is fuel-insensitive above the key count) and emits each
declaration exactly once; a call on a node already in progress returns
immediately, skipping the edge. -/
theorem c3_topo_terminates (keys : List Str) (deps : List (Str × List Str)) :
    (∀ k ∈ keys, (topological_sort keys deps).count k = 1) ∧
    (∀ fuel name st, name ∈ st.temp → visit deps keys (fuel + 1) name st = st) ∧
    (∀ fuel, keys.length < fuel →
      topological_sortFuel fuel keys deps = topological_sort keys deps) := by
  refine ⟨?_, ?_, topo_fuel_stable keys deps⟩
  · intro k hk
    obtain ⟨hnd, hmem⟩ := topo_sort_nodup_mem keys deps
    exact count_one_of_nodup_mem hnd ((hmem k).mpr hk)
  · intro fuel name st h
    exact visit_mem_stop deps keys (fuel + 1) name st (Or.inl h)

/-- A mutually recursive pair with a self-reference: `a` mentions `a` and `b`,
`b` mentions `a`. -/
def depsM : List (Str × List Str) :=
  [("a".toList, ["a".toList, "b".toList]), ("b".toList, ["a".toList])]

def keysM : List Str := ["a".toList, "b".toList]

theorem c3_topo_terminates_witness :
    (topological_sort keysM depsM).count "a".toList = 1 ∧
    (topological_sort keysM depsM).count "b".toList = 1 ∧
    visit depsM keysM 1 "a".toList (DfsState.mk [] ["a".toList] []) =
      DfsState.mk [] ["a".toList] [] ∧
    topological_sortFuel 5 keysM depsM = topological_sort keysM depsM :=
  ⟨(c3_topo_terminates keysM depsM).1 "a".toList (by decide),
   (c3_topo_terminates keysM depsM).1 "b".toList (by decide),
   (c3_topo_terminates keysM depsM).2.1 0 "a".toList (DfsState.mk [] ["a".toList] [])
     (by decide),
   (c3_topo_terminates keysM depsM).2.2 5 (by decide)⟩

/-- Claim C4: when a name occurs on exactly two declarations of a
start-sorted extraction list, deduplication keeps exactly the textually first
occurrence (the smaller start offset): the name maps to the earlier text, the
retained keys contain it once, and the duplicate log records it exactly
once. -/
theorem c4_dedup_first (fns : List Extracted) (n : Str)
    (hp : fns.Pairwise (fun a b => a.startPos < b.startPos))
    (hc : (fns.map Extracted.name).count n = 2) :
    ∃ e1 e2, e1 ∈ fns ∧ e2 ∈ fns ∧ e1.name = n ∧ e2.name = n ∧
      e1.startPos < e2.startPos ∧
      List.lookup n (removeDups fns).1 = some e1.text ∧
      ((removeDups fns).1.map Prod.fst).count n = 1 ∧
      (removeDups fns).2.count n = 1 := by
  obtain ⟨e1, e2, h1, h2, h3, h4, h5, h6, h7, h8, _⟩ := dedup_two_main fns n hp hc
  exact ⟨e1, e2, h1, h2, h3, h4, h5, h6, h7, h8⟩

theorem c4_dedup_first_witness :
    ((extract_functions docC4).map Extracted.name).count "a".toList = 2 ∧
    (∃ e1 e2, e1 ∈ extract_functions docC4 ∧ e2 ∈ extract_functions docC4 ∧
      e1.name = "a".toList ∧ e2.name = "a".toList ∧
      e1.startPos < e2.startPos ∧
      List.lookup "a".toList (removeDups (extract_functions docC4)).1 = some e1.text ∧
      ((removeDups (extract_functions docC4)).1.map Prod.fst).count "a".toList = 1 ∧
      (removeDups (extract_functions docC4)).2.count "a".toList = 1) :=
  ⟨by decide, c4_dedup_first (extract_functions docC4) "a".toList (by decide) (by decide)⟩

/-- Claim C5: the header — every line before the first non-header
`let `/`type ` line, exactly as the code computes it — is a verbatim prefix of
the input document and a verbatim prefix of the reorganised output text. -/
theorem c5_header_preserved (content : Str) :
    List.IsPrefix (extractHeader content) content ∧
    List.IsPrefix (extractHeader content) (reorder content) :=
  ⟨extractHeader_starts_content content, extractHeader_starts_reorder content⟩

/-- Claim C6 (code bug): on a recognized function header whose braces never
balance, the loop of lines 29-42 leaves `end_pos = start_pos`, so the
extracted declaration text is the EMPTY string — not the remainder of the
document that the specification promises. -/
theorem c6_unbalanced_empty_span :
    extract_functions docC6 = [Extracted.mk "f".toList [] 0 0] := by
  decide

/-- Claim C7 counterexample: the dependency set computed for the single
declaration `f` of `docC7` contains `f` itself — self-references are present
in the mapping. -/
theorem c7_counterexample :
    "f".toList ∈ depsOf (dependenciesOf (removeDups (extract_functions docC7)).1)
      "f".toList := by
  decide

/-- Claim C7 (amended): the analyzer's mapping may contain a declaration's own
name (it always does when the name occurs in its own text, e.g. in its
header); self-references are merely ignored by the sorter's visit loop, so
removing all of them from the mapping leaves the output order unchanged. -/
theorem c7_self_reference_ignored (keys : List Str) (deps : List (Str × List Str)) :
    topological_sort keys (stripSelf deps) = topological_sort keys deps :=
  topo_stripSelf keys deps

/-- Claim C8 counterexample: `docC8` extracts duplicate-free declarations with
an acyclic dependency graph, yet running the pipeline on its own output
changes the declaration sequence (the type section pulled `t` ahead of the
functions, so the second run reorders `f` and `g`). -/
theorem c8_counterexample :
    ((extract_functions docC8).map Extracted.name).Nodup ∧
    (∀ u v, Edge (dependenciesOf (removeDups (extract_functions docC8)).1)
        ((removeDups (extract_functions docC8)).1.map Prod.fst) u v →
      ¬ Reach (dependenciesOf (removeDups (extract_functions docC8)).1)
        ((removeDups (extract_functions docC8)).1.map Prod.fst) v u) ∧
    docDeclNames (reorder (reorder docC8)) ≠ docDeclNames (reorder docC8) := by
  refine ⟨by decide, ?_, by decide⟩
  have hdeps : dependenciesOf (removeDups (extract_functions docC8)).1 =
      [("f".toList, ["f".toList]), ("g".toList, ["g".toList]),
       ("t".toList, ["g".toList, "t".toList])] := by decide
  rw [hdeps]
  apply no_cycle_of_rank _ _ (fun n => if n = "t".toList then 1 else 0)
  intro u v hE
  obtain ⟨hv, _, hne⟩ := hE
  by_cases hu1 : u = "f".toList
  · subst hu1
    have hd : depsOf [("f".toList, ["f".toList]), ("g".toList, ["g".toList]),
        ("t".toList, ["g".toList, "t".toList])] "f".toList = ["f".toList] := by decide
    rw [hd] at hv
    have : v = "f".toList := by simpa using hv
    exact absurd this hne
  by_cases hu2 : u = "g".toList
  · subst hu2
    have hd : depsOf [("f".toList, ["f".toList]), ("g".toList, ["g".toList]),
        ("t".toList, ["g".toList, "t".toList])] "g".toList = ["g".toList] := by decide
    rw [hd] at hv
    have : v = "g".toList := by simpa using hv
    exact absurd this hne
  by_cases hu3 : u = "t".toList
  · subst hu3
    have hd : depsOf [("f".toList, ["f".toList]), ("g".toList, ["g".toList]),
        ("t".toList, ["g".toList, "t".toList])] "t".toList =
        ["g".toList, "t".toList] := by decide
    rw [hd] at hv
    have : v = "g".toList ∨ v = "t".toList := by simpa using hv
    rcases this with rfl | rfl
    · decide
    · exact absurd rfl hne
  · have h1 : (u == (['f'] : Str)) = false := beq_eq_false_iff_ne.mpr hu1
    have h2 : (u == (['g'] : Str)) = false := beq_eq_false_iff_ne.mpr hu2
    have h3 : (u == (['t'] : Str)) = false := beq_eq_false_iff_ne.mpr hu3
    have hd : depsOf [("f".toList, ["f".toList]), ("g".toList, ["g".toList]),
        ("t".toList, ["g".toList, "t".toList])] u = [] := by
      unfold depsOf
      simp [List.lookup, h1, h2, h3]
    rw [hd] at hv
    cases hv

/-- Claim C8 (amended): the document-level fixed point fails (see the
counterexample: the assembler's type/function partition changes the key order
between runs), but the orderer itself is idempotent — for duplicate-free keys
over an acyclic dependency graph, re-sorting the sorter's own output returns
it unchanged. -/
theorem c8_amended_topo_idem (keys : List Str) (deps : List (Str × List Str))
    (hnd : keys.Nodup)
    (hacyc : ∀ u v, Edge deps keys u v → ¬ Reach deps keys v u) :
    topological_sort (topological_sort keys deps) deps = topological_sort keys deps :=
  topo_idem_main keys deps hnd hacyc

theorem c8_amended_topo_idem_witness :
    keysW.Nodup ∧
    topological_sort (topological_sort keysW depsW) depsW =
      topological_sort keysW depsW :=
  ⟨by decide, c8_amended_topo_idem keysW depsW (by decide) depsW_acyclic⟩

/-- Claim C9: deduplication compares names only and ignores the declaration
kind: when a type declaration and a function declaration share a name (exactly
two occurrences, start-sorted), exactly one is retained — whichever has the
smaller start offset — and the other, though of a different kind, is discarded
and logged as a duplicate. -/
theorem c9_dedup_ignores_kind (fns : List Extracted) (n : Str)
    (hp : fns.Pairwise (fun a b => a.startPos < b.startPos))
    (hc : (fns.map Extracted.name).count n = 2)
    (ht : ∃ et ∈ fns, et.name = n ∧ isTypeDef et.text = true)
    (hfn : ∃ ef ∈ fns, ef.name = n ∧ isTypeDef ef.text = false) :
    ∃ e1 e2, e1 ∈ fns ∧ e2 ∈ fns ∧ e1.name = n ∧ e2.name = n ∧
      e1.startPos < e2.startPos ∧
      isTypeDef e1.text ≠ isTypeDef e2.text ∧
      List.lookup n (removeDups fns).1 = some e1.text ∧
      ((removeDups fns).1.map Prod.fst).count n = 1 ∧
      (removeDups fns).2.count n = 1 := by
  obtain ⟨e1, e2, h1, h2, h3, h4, h5, h6, h7, h8, hall⟩ := dedup_two_main fns n hp hc
  obtain ⟨et, hetm, hetn, hett⟩ := ht
  obtain ⟨ef, hefm, hefn, heft⟩ := hfn
  have hkind : isTypeDef e1.text ≠ isTypeDef e2.text := by
    rcases hall et hetm hetn with he1 | he1 <;> rcases hall ef hefm hefn with he2 | he2
    · rw [he1] at hett
      rw [he2] at heft
      rw [hett] at heft
      exact absurd heft (by decide)
    · rw [he1] at hett
      rw [he2] at heft
      rw [hett, heft]
      decide
    · rw [he1] at hett
      rw [he2] at heft
      rw [hett, heft]
      decide
    · rw [he1] at hett
      rw [he2] at heft
      rw [hett] at heft
      exact absurd heft (by decide)
  exact ⟨e1, e2, h1, h2, h3, h4, h5, hkind, h6, h7, h8⟩

theorem c9_dedup_ignores_kind_witness :
    ((extract_functions docC9).map Extracted.name).count "a".toList = 2 ∧
    (∃ e1 e2, e1 ∈ extract_functions docC9 ∧ e2 ∈ extract_functions docC9 ∧
      e1.name = "a".toList ∧ e2.name = "a".toList ∧
      e1.startPos < e2.startPos ∧
      isTypeDef e1.text ≠ isTypeDef e2.text ∧
      List.lookup "a".toList (removeDups (extract_functions docC9)).1 = some e1.text ∧
      ((removeDups (extract_functions docC9)).1.map Prod.fst).count "a".toList = 1 ∧
      (removeDups (extract_functions docC9)).2.count "a".toList = 1) :=
  ⟨by decide, c9_dedup_ignores_kind (extract_functions docC9) "a".toList
    (by decide) (by decide) (by decide) (by decide)⟩

/-- Claim C10: for `docC10` — a type declaration immediately followed by a
function with no blank line between — the extracted type span runs to
end-of-document and overlaps the function's span, so the function's text
occurs (at least) twice in the assembled output. -/
theorem c10_type_span_overlap :
    ∃ e1 e2 : Extracted, extract_functions docC10 = [e1, e2] ∧
      isTypeDef e1.text = true ∧ isTypeDef e2.text = false ∧
      e2.startPos < e1.endPos ∧
      2 ≤ countSub e2.text (reorder docC10) := by
  refine ⟨Extracted.mk "t".toList
      "type t = int\nlet f = () : int => \x7b 1 \x7d".toList 0 38,
    Extracted.mk "f".toList "let f = () : int => \x7b 1 \x7d".toList 13 38, ?_⟩
  decide

end Reorg
